import Mathlib

/-!
Verification development for the CoinMarketCap top-100 scraper (`src/main.py`).

The program has three stages:
* `get_html` drives a browser and returns the page markup (network side
  effect, modelled only as an arbitrary markup value);
* `get_content` locates a `tbody`, collects the name elements and the
  capitalization elements matched by two fixed class selectors, cleans and
  parses each capitalization string, and builds `(name, cap, percentage)`
  records;
* `write_cmc_top` writes a timestamped semicolon-delimited file with a
  `Name;MC;MP` header and one row per record.

Embedding conventions:
* Parsed markup is abstracted to the pieces the selectors can reach: an
  optional table body holding the ordered list of name-element texts and the
  ordered list of capitalization-element texts.
* Python `float` values are modelled as exact rationals `ℚ`.
* Fallible steps (`float(...)` raising `ValueError`, `None.find_all`
  raising `AttributeError`, division by a zero total raising
  `ZeroDivisionError`) are modelled with `Except String`.
* Python string helpers are modelled on character lists:
  `str.strip()` drops leading/trailing whitespace, and
  `str.replace(c, '')` for a one-character pattern removes every
  occurrence of that character.
-/

namespace Cmc

/-- Model of Python `str.strip()`: remove leading and trailing whitespace. -/
def pyStrip (s : String) : String :=
  String.mk (((s.toList.dropWhile Char.isWhitespace).reverse.dropWhile
    Char.isWhitespace).reverse)

/-- Model of Python `str.replace(c, '')` for a single-character pattern:
remove every occurrence of the character `c`. -/
def pyReplaceChar (s : String) (c : Char) : String :=
  String.mk (s.toList.filter (fun x => x ≠ c))

/-- The cleaning pipeline applied to each capitalization string in
`get_content`: `cap_tag.text.strip().replace('$', '').replace(',', '')`. -/
def cleanCap (s : String) : String :=
  pyReplaceChar (pyReplaceChar (pyStrip s) '$') ','

/-- Numeric value of a list of digit characters, most significant first
(value of the empty list is 0). -/
def digitsFold (l : List Char) : ℕ :=
  l.foldl (fun a c => 10 * a + (c.toNat - 48)) 0

/-- Model of Python `float(s)` on the grammar relevant to this program:
an optional run of digits, an optional decimal point, an optional run of
digits, with at least one digit in total.  Any other shape raises
`ValueError`, modelled as `none`.  The value is returned as an exact
rational. -/
def pyFloat? (s : String) : Option ℚ :=
  let l := s.toList
  let ip := l.takeWhile (fun c => c ≠ '.')
  let rest := l.dropWhile (fun c => c ≠ '.')
  match rest with
  | [] =>
      if ip ≠ [] ∧ ip.all Char.isDigit then some ((digitsFold ip : ℕ) : ℚ)
      else none
  | _ :: fp =>
      if ('.' ∉ fp) ∧ (ip ≠ [] ∨ fp ≠ []) ∧ ip.all Char.isDigit ∧
          fp.all Char.isDigit then
        some (((digitsFold ip : ℕ) : ℚ) +
          ((digitsFold fp : ℕ) : ℚ) / (10 : ℚ) ^ fp.length)
      else none

/-- `float(cap_tag.text.strip().replace('$', '').replace(',', ''))`:
clean a capitalization string and parse it, propagating Python's
`ValueError` as `Except.error`. -/
def parseCap (s : String) : Except String ℚ :=
  match pyFloat? (cleanCap s) with
  | some q => Except.ok q
  | none => Except.error ("ValueError: could not convert string to float: " ++ s)

/-- Python float division, raising `ZeroDivisionError` on a zero divisor. -/
def divQ (a b : ℚ) : Except String ℚ :=
  if b = 0 then Except.error "ZeroDivisionError: float division by zero"
  else Except.ok (a / b)

/-- The table body reachable from the parsed markup: the ordered texts of
the `p` elements matched by `{'class': 'sc-4984dd93-0 kKpPOn'}` (coin
names) and the ordered texts of the `span` elements matched by
`{'class': 'sc-7bc56c81-1 bCdPBp'}` (capitalizations). -/
structure Tbody where
  nameTags : List String
  capTags : List String
  deriving DecidableEq, Repr

/-- Parsed markup as far as `get_content` inspects it: `soup.find('tbody')`
either finds a table body or returns `None`. -/
structure Markup where
  tbody : Option Tbody
  deriving DecidableEq, Repr

/-- One extracted record `(coin_name, coin_cap, market_percentage)`. -/
abbrev CoinInfo := String × ℚ × ℚ

/-- The first loop of `get_content`: parse every capitalization string in
order, stopping at the first `ValueError`.  (The source accumulates
`total_market_cap += float(...)`; summing the parsed list below is the
same computation.) -/
def parseCaps : List String → Except String (List ℚ)
  | [] => Except.ok []
  | s :: rest =>
      match parseCap s with
      | Except.error e => Except.error e
      | Except.ok c =>
          match parseCaps rest with
          | Except.error e => Except.error e
          | Except.ok cs => Except.ok (c :: cs)

/-- The second loop of `get_content`: for each
`zip(coin_name_tags, capitalization_tags)` pair, strip the name, parse the
capitalization again, and compute `(coin_cap / total) * 100`. -/
def mkRecords (total : ℚ) : List (String × String) → Except String (List CoinInfo)
  | [] => Except.ok []
  | (n, cs) :: rest =>
      match parseCap cs with
      | Except.error e => Except.error e
      | Except.ok cap =>
          match divQ cap total with
          | Except.error e => Except.error e
          | Except.ok q =>
              match mkRecords total rest with
              | Except.error e => Except.error e
              | Except.ok rs => Except.ok ((pyStrip n, cap, q * 100) :: rs)

/-- `get_content(html_text)`: locate the table body (an `AttributeError`
propagates if `find('tbody')` returned `None`), total all capitalization
values, then build the record list over the zipped name/capitalization
pairs. -/
def get_content (m : Markup) : Except String (List CoinInfo) :=
  match m.tbody with
  | none => Except.error "AttributeError: NoneType object has no attribute find_all"
  | some table =>
      match parseCaps table.capTags with
      | Except.error e => Except.error e
      | Except.ok caps => mkRecords caps.sum (table.nameTags.zip table.capTags)

/-! ### Well-formed currency strings (for the parsing claim)

A currency string in the documented format is rendered from its digit
lists: an optional `$`, the integer digits with comma thousands
separators, and an optional `.` followed by the fraction digits. -/

/-- Insert a comma after every three characters of a reversed digit list
(so, every three digits counted from the right of the number). -/
def commaGroup : List Char → List Char
  | a :: b :: c :: d :: rest => a :: b :: c :: ',' :: commaGroup (d :: rest)
  | l => l

/-- Standard thousands grouping of a digit-character list. -/
def group3 (l : List Char) : List Char :=
  (commaGroup l.reverse).reverse

/-- Value denoted by a list of decimal digits, most significant first. -/
def digitsNat (ds : List ℕ) : ℕ :=
  ds.foldl (fun a d => 10 * a + d) 0

/-- The currency string with integer digits `ds` (comma-grouped), optional
leading `$`, and fraction digits `frac` after a decimal point when
`frac` is nonempty: e.g. `currencyStr true [1,2,3,4,5,6,7] [8,9]` is
`"$1,234,567.89"`. -/
def currencyStr (dollar : Bool) (ds frac : List ℕ) : String :=
  String.mk ((if dollar then ['$'] else []) ++ group3 (ds.map Nat.digitChar) ++
    (if frac = [] then [] else '.' :: frac.map Nat.digitChar))

/-! ### Persistence (`write_cmc_top`) -/

/-- One `csv.writer` row with `delimiter=';'`: the fields joined by a
semicolon (none of the fields written by this program needs quoting). -/
def csvRow (fields : List String) : String :=
  String.intercalate ";" fields

/-- Rendering of a numeric field by `csv.writer` (Python `str` of the
value); no claim inspects the text of a numeric field. -/
def ratField (q : ℚ) : String :=
  toString q

/-- The rows written by `write_cmc_top`: the fixed header
`['Name', 'MC', 'MP']` followed by one row per extracted record. -/
def fileLines (coins : List CoinInfo) : List String :=
  csvRow ["Name", "MC", "MP"] ::
    coins.map (fun c => csvRow [c.1, ratField c.2.1, ratField c.2.2])

/-- The timestamp fields used by `datetime.datetime.now().strftime`. -/
structure Timestamp where
  hour : ℕ
  minute : ℕ
  day : ℕ
  month : ℕ
  year : ℕ
  deriving DecidableEq, Repr

/-- A two-digit zero-padded field (`%H`, `%M`, `%d`, `%m`). -/
def pad2 (n : ℕ) : String :=
  String.mk [Nat.digitChar (n / 10 % 10), Nat.digitChar (n % 10)]

/-- The four-digit year field (`%Y`, for years 1000–9999). -/
def pad4 (n : ℕ) : String :=
  String.mk [Nat.digitChar (n / 1000 % 10), Nat.digitChar (n / 100 % 10),
    Nat.digitChar (n / 10 % 10), Nat.digitChar (n % 10)]

/-- Model of `datetime.datetime.now().strftime("%H.%M %d.%m.%Y")`. -/
def strftimeStamp (t : Timestamp) : String :=
  pad2 t.hour ++ "." ++ pad2 t.minute ++ " " ++ pad2 t.day ++ "." ++
    pad2 t.month ++ "." ++ pad4 t.year

/-- `f"Top100 {now}.csv"`: the name of the file the program writes. -/
def filenameOf (t : Timestamp) : String :=
  "Top100 " ++ strftimeStamp t ++ ".csv"

/-- A character template: `some c` demands the literal character `c`,
`none` demands any decimal digit. -/
def matchesShape : List (Option Char) → List Char → Bool
  | [], [] => true
  | Option.none :: ps, c :: cs => c.isDigit && matchesShape ps cs
  | Option.some p :: ps, c :: cs => (c = p) && matchesShape ps cs
  | _, _ => false

/-- Modelled from the spec: the documented filename pattern
`Top100 <HH.MM DD.MM.YYYY>.csv` as a character template — the literal
`Top100 `, two digits, `.`, two digits, a space, two digits, `.`, two
digits, `.`, four digits, then the literal `.csv`. -/
def top100Shape : List (Option Char) :=
  [some 'T', some 'o', some 'p', some '1', some '0', some '0', some ' ',
    none, none, some '.', none, none, some ' ', none, none, some '.',
    none, none, some '.', none, none, none, none,
    some '.', some 'c', some 's', some 'v']

/-- Whether a string matches the documented filename pattern. -/
def matchesTop100Pattern (s : String) : Bool :=
  matchesShape top100Shape s.toList

/-- The output written by `write_cmc_top`, modelled as rows: the error from a
failed extraction propagates before any row is written. -/
def run_output (m : Markup) : Except String (List String) :=
  (get_content m).map fileLines

/-! ### Helper lemmas: characters and digit lists -/

theorem digitChar_isDigit {d : ℕ} (h : d < 10) :
    (Nat.digitChar d).isDigit = true := by
  interval_cases d <;> decide

theorem digitChar_ne_dollar {d : ℕ} (h : d < 10) : Nat.digitChar d ≠ '$' := by
  interval_cases d <;> decide

theorem digitChar_ne_comma {d : ℕ} (h : d < 10) : Nat.digitChar d ≠ ',' := by
  interval_cases d <;> decide

theorem digitChar_ne_dot {d : ℕ} (h : d < 10) : Nat.digitChar d ≠ '.' := by
  interval_cases d <;> decide

theorem digitChar_not_ws {d : ℕ} (h : d < 10) :
    (Nat.digitChar d).isWhitespace = false := by
  interval_cases d <;> decide

theorem digitChar_toNat {d : ℕ} (h : d < 10) :
    (Nat.digitChar d).toNat = 48 + d := by
  interval_cases d <;> decide

theorem isDigit_ne_dot {c : Char} (h : c.isDigit = true) : c ≠ '.' := by
  intro hc
  subst hc
  exact absurd h (by decide)

theorem digitsFold_map_digitChar :
    ∀ (ds : List ℕ) (a : ℕ), (∀ d ∈ ds, d < 10) →
      (ds.map Nat.digitChar).foldl (fun x c => 10 * x + (c.toNat - 48)) a =
        ds.foldl (fun x d => 10 * x + d) a
  | [], _, _ => rfl
  | d :: ds, a, h => by
      have hd : d < 10 := h d (by simp)
      have hds : ∀ x ∈ ds, x < 10 := fun x hx => h x (by simp [hx])
      simp only [List.map_cons, List.foldl_cons,
        digitChar_toNat hd]
      have : 48 + d - 48 = d := by omega
      rw [this]
      exact digitsFold_map_digitChar ds (10 * a + d) hds

theorem digitsFold_map (ds : List ℕ) (h : ∀ d ∈ ds, d < 10) :
    digitsFold (ds.map Nat.digitChar) = digitsNat ds :=
  digitsFold_map_digitChar ds 0 h

/-! ### Helper lemmas: takeWhile / dropWhile / strip -/

theorem dropWhile_of_forall_false {p : Char → Bool} :
    ∀ l : List Char, (∀ c ∈ l, p c = false) → l.dropWhile p = l
  | [], _ => rfl
  | c :: cs, h => by
      simp [List.dropWhile_cons, h c (by simp)]

theorem takeWhile_of_forall_true {p : Char → Bool} :
    ∀ l : List Char, (∀ c ∈ l, p c = true) → l.takeWhile p = l
  | [], _ => rfl
  | c :: cs, h => by
      simp only [List.takeWhile_cons, h c (by simp), if_true]
      rw [takeWhile_of_forall_true cs (fun x hx => h x (by simp [hx]))]

theorem dropWhile_of_forall_true {p : Char → Bool} :
    ∀ l : List Char, (∀ c ∈ l, p c = true) → l.dropWhile p = []
  | [], _ => rfl
  | c :: cs, h => by
      simp only [List.dropWhile_cons, h c (by simp), if_true]
      exact dropWhile_of_forall_true cs (fun x hx => h x (by simp [hx]))

theorem takeWhile_append_cons {p : Char → Bool} :
    ∀ (xs : List Char) (y : Char) (ys : List Char),
      (∀ x ∈ xs, p x = true) → p y = false →
      (xs ++ y :: ys).takeWhile p = xs
  | [], y, ys, _, hy => by simp [List.takeWhile_cons, hy]
  | x :: xs, y, ys, hx, hy => by
      simp only [List.cons_append, List.takeWhile_cons, hx x (by simp), if_true]
      rw [takeWhile_append_cons xs y ys (fun a ha => hx a (by simp [ha])) hy]

theorem dropWhile_append_cons {p : Char → Bool} :
    ∀ (xs : List Char) (y : Char) (ys : List Char),
      (∀ x ∈ xs, p x = true) → p y = false →
      (xs ++ y :: ys).dropWhile p = y :: ys
  | [], y, ys, _, hy => by simp [List.dropWhile_cons, hy]
  | x :: xs, y, ys, hx, hy => by
      simp only [List.cons_append, List.dropWhile_cons, hx x (by simp), if_true]
      exact dropWhile_append_cons xs y ys (fun a ha => hx a (by simp [ha])) hy

theorem pyStrip_eq_self {l : List Char}
    (h : ∀ c ∈ l, c.isWhitespace = false) : pyStrip ⟨l⟩ = ⟨l⟩ := by
  unfold pyStrip
  have h1 : (String.mk l).toList = l := rfl
  rw [h1, dropWhile_of_forall_false l h,
    dropWhile_of_forall_false l.reverse (fun c hc => h c (List.mem_reverse.mp hc)),
    List.reverse_reverse]

/-! ### Helper lemmas: filtering and comma grouping -/

theorem filter_of_forall_true {p : Char → Bool} :
    ∀ l : List Char, (∀ c ∈ l, p c = true) → l.filter p = l
  | [], _ => rfl
  | c :: cs, h => by
      simp only [List.filter_cons, h c (by simp), if_true]
      rw [filter_of_forall_true cs (fun x hx => h x (by simp [hx]))]

theorem mem_commaGroup :
    ∀ l : List Char, ∀ c ∈ commaGroup l, c = ',' ∨ c ∈ l
  | [] => by simp [commaGroup]
  | [a] => by simp [commaGroup]
  | [a, b] => by simp [commaGroup]
  | [a, b, c] => by simp [commaGroup]
  | a :: b :: c :: d :: rest => by
      have he : commaGroup (a :: b :: c :: d :: rest) =
          a :: b :: c :: ',' :: commaGroup (d :: rest) := rfl
      intro x hx
      rw [he] at hx
      simp only [List.mem_cons] at hx ⊢
      rcases hx with h1 | h1 | h1 | h1 | h1
      · exact Or.inr (Or.inl h1)
      · exact Or.inr (Or.inr (Or.inl h1))
      · exact Or.inr (Or.inr (Or.inr (Or.inl h1)))
      · exact Or.inl h1
      · rcases mem_commaGroup (d :: rest) x h1 with h2 | h2
        · exact Or.inl h2
        · simp only [List.mem_cons] at h2
          tauto

theorem filter_commaGroup {p : Char → Bool} (hp : p ',' = false) :
    ∀ l : List Char, (commaGroup l).filter p = l.filter p
  | [] => rfl
  | [a] => rfl
  | [a, b] => rfl
  | [a, b, c] => rfl
  | a :: b :: c :: d :: rest => by
      have he : commaGroup (a :: b :: c :: d :: rest) =
          a :: b :: c :: ',' :: commaGroup (d :: rest) := rfl
      rw [he]
      have h4 : List.filter p (',' :: commaGroup (d :: rest)) =
          List.filter p (d :: rest) := by
        rw [List.filter_cons]
        simp only [hp, Bool.false_eq_true, if_false]
        exact filter_commaGroup hp (d :: rest)
      have h5 : a :: b :: c :: ',' :: commaGroup (d :: rest) =
          [a, b, c] ++ ',' :: commaGroup (d :: rest) := rfl
      have h6 : a :: b :: c :: d :: rest = [a, b, c] ++ d :: rest := rfl
      rw [h5, h6, List.filter_append, List.filter_append, h4]

theorem filter_group3 {p : Char → Bool} (hp : p ',' = false) (l : List Char) :
    (group3 l).filter p = l.filter p := by
  unfold group3
  rw [List.filter_reverse, filter_commaGroup hp, List.filter_reverse,
    List.reverse_reverse]

theorem mem_group3 {l : List Char} {c : Char} (h : c ∈ group3 l) :
    c = ',' ∨ c ∈ l := by
  have h1 : c ∈ commaGroup l.reverse := by
    have := List.mem_reverse.mpr h
    simpa [group3] using h
  rcases mem_commaGroup l.reverse c h1 with h2 | h2
  · exact Or.inl h2
  · exact Or.inr (List.mem_reverse.mp h2)

/-! ### Cleaning a well-formed currency string -/

theorem cleanCap_mk (l : List Char) (hws : ∀ c ∈ l, c.isWhitespace = false) :
    cleanCap ⟨l⟩ =
      ⟨(l.filter (fun x => x ≠ '$')).filter (fun x => x ≠ ',')⟩ := by
  unfold cleanCap pyReplaceChar
  rw [pyStrip_eq_self hws]
  rfl

theorem currency_no_ws (dollar : Bool) (ds frac : List ℕ)
    (hds : ∀ d ∈ ds, d < 10) (hf : ∀ d ∈ frac, d < 10) :
    ∀ c ∈ (currencyStr dollar ds frac).toList, c.isWhitespace = false := by
  intro c hc
  have hc2 : c ∈ (if dollar then ['$'] else ([] : List Char)) ∨
      c ∈ group3 (ds.map Nat.digitChar) ∨
      c ∈ (if frac = [] then ([] : List Char)
        else '.' :: frac.map Nat.digitChar) := by
    simpa [currencyStr, List.mem_append, or_assoc] using hc
  rcases hc2 with h | h | h
  · cases dollar
    · simp at h
    · simp only [if_true] at h
      simp only [List.mem_singleton] at h
      subst h
      decide
  · rcases mem_group3 h with rfl | h2
    · decide
    · rcases List.mem_map.mp h2 with ⟨d, hd, rfl⟩
      exact digitChar_not_ws (hds d hd)
  · rcases frac with _ | ⟨f, fs⟩
    · simp at h
    · rw [if_neg (List.cons_ne_nil f fs)] at h
      rcases List.mem_cons.mp h with rfl | h3
      · decide
      · rcases List.mem_map.mp h3 with ⟨d, hd, rfl⟩
        exact digitChar_not_ws (hf d hd)

theorem currency_filter (dollar : Bool) (ds frac : List ℕ)
    (hds : ∀ d ∈ ds, d < 10) (hf : ∀ d ∈ frac, d < 10) :
    ((currencyStr dollar ds frac).toList.filter
        (fun x => x ≠ '$')).filter (fun x => x ≠ ',') =
      ds.map Nat.digitChar ++
        (if frac = [] then [] else '.' :: frac.map Nat.digitChar) := by
  have hlist : (currencyStr dollar ds frac).toList =
      (if dollar then ['$'] else []) ++ group3 (ds.map Nat.digitChar) ++
        (if frac = [] then [] else '.' :: frac.map Nat.digitChar) := rfl
  rw [hlist]
  have h1 : (if dollar then ['$'] else ([] : List Char)).filter
      (fun x => x ≠ '$') = [] := by
    cases dollar <;> rfl
  have h2 : (group3 (ds.map Nat.digitChar)).filter (fun x => x ≠ '$') =
      group3 (ds.map Nat.digitChar) := by
    apply filter_of_forall_true
    intro c hc
    rcases mem_group3 hc with rfl | h3
    · decide
    · rcases List.mem_map.mp h3 with ⟨d, hd, rfl⟩
      simp [digitChar_ne_dollar (hds d hd)]
  have h3 : (if frac = [] then ([] : List Char)
      else '.' :: frac.map Nat.digitChar).filter (fun x => x ≠ '$') =
      (if frac = [] then ([] : List Char)
        else '.' :: frac.map Nat.digitChar) := by
    apply filter_of_forall_true
    intro c hc
    rcases frac with _ | ⟨f, fs⟩
    · simp at hc
    · rw [if_neg (List.cons_ne_nil f fs)] at hc
      rcases List.mem_cons.mp hc with rfl | hc2
      · decide
      · rcases List.mem_map.mp hc2 with ⟨d, hd, rfl⟩
        simp [digitChar_ne_dollar (hf d hd)]
  have step1 : ((if dollar then ['$'] else []) ++ group3 (ds.map Nat.digitChar) ++
      (if frac = [] then [] else '.' :: frac.map Nat.digitChar)).filter
        (fun x => x ≠ '$') =
      group3 (ds.map Nat.digitChar) ++
        (if frac = [] then [] else '.' :: frac.map Nat.digitChar) := by
    rw [List.filter_append, List.filter_append, h1, h2, h3, List.nil_append]
  rw [step1, List.filter_append]
  have h4 : (group3 (ds.map Nat.digitChar)).filter (fun x => x ≠ ',') =
      ds.map Nat.digitChar := by
    rw [filter_group3 (by decide)]
    apply filter_of_forall_true
    intro c hc
    rcases List.mem_map.mp hc with ⟨d, hd, rfl⟩
    simp [digitChar_ne_comma (hds d hd)]
  have h5 : (if frac = [] then ([] : List Char)
      else '.' :: frac.map Nat.digitChar).filter (fun x => x ≠ ',') =
      (if frac = [] then ([] : List Char)
        else '.' :: frac.map Nat.digitChar) := by
    apply filter_of_forall_true
    intro c hc
    rcases frac with _ | ⟨f, fs⟩
    · simp at hc
    · rw [if_neg (List.cons_ne_nil f fs)] at hc
      rcases List.mem_cons.mp hc with rfl | hc2
      · decide
      · rcases List.mem_map.mp hc2 with ⟨d, hd, rfl⟩
        simp [digitChar_ne_comma (hf d hd)]
  rw [h4, h5]

theorem cleanCap_currencyStr (dollar : Bool) (ds frac : List ℕ)
    (hds : ∀ d ∈ ds, d < 10) (hf : ∀ d ∈ frac, d < 10) :
    cleanCap (currencyStr dollar ds frac) =
      ⟨ds.map Nat.digitChar ++
        (if frac = [] then [] else '.' :: frac.map Nat.digitChar)⟩ := by
  have h0 : currencyStr dollar ds frac = ⟨(currencyStr dollar ds frac).toList⟩ := rfl
  rw [h0, cleanCap_mk _ (currency_no_ws dollar ds frac hds hf),
    currency_filter dollar ds frac hds hf]

/-! ### Parsing a cleaned digit string -/

theorem pyFloat_digits (ds : List ℕ) (hne : ds ≠ []) (hds : ∀ d ∈ ds, d < 10) :
    pyFloat? ⟨ds.map Nat.digitChar⟩ = some ((digitsNat ds : ℕ) : ℚ) := by
  have hdot : ∀ c ∈ ds.map Nat.digitChar, (fun c => decide (c ≠ '.')) c = true := by
    intro c hc
    rcases List.mem_map.mp hc with ⟨d, hd, rfl⟩
    simp [digitChar_ne_dot (hds d hd)]
  have h1 : (String.mk (ds.map Nat.digitChar)).toList = ds.map Nat.digitChar := rfl
  have htake : (ds.map Nat.digitChar).takeWhile (fun c => c ≠ '.') =
      ds.map Nat.digitChar := takeWhile_of_forall_true _ hdot
  have hdrop : (ds.map Nat.digitChar).dropWhile (fun c => c ≠ '.') = [] :=
    dropWhile_of_forall_true _ hdot
  have hcond : ds.map Nat.digitChar ≠ [] ∧
      (ds.map Nat.digitChar).all Char.isDigit = true := by
    refine ⟨by simpa using hne, ?_⟩
    rw [List.all_eq_true]
    intro c hc
    rcases List.mem_map.mp hc with ⟨d, hd, rfl⟩
    exact digitChar_isDigit (hds d hd)
  simp only [pyFloat?, h1, htake, hdrop]
  rw [if_pos hcond, digitsFold_map ds hds]

theorem pyFloat_digits_frac (ds frac : List ℕ) (hne : ds ≠ [])
    (hds : ∀ d ∈ ds, d < 10) (hf : ∀ d ∈ frac, d < 10) :
    pyFloat? ⟨ds.map Nat.digitChar ++ '.' :: frac.map Nat.digitChar⟩ =
      some (((digitsNat ds : ℕ) : ℚ) +
        ((digitsNat frac : ℕ) : ℚ) / (10 : ℚ) ^ frac.length) := by
  have hdot : ∀ c ∈ ds.map Nat.digitChar, (fun c => decide (c ≠ '.')) c = true := by
    intro c hc
    rcases List.mem_map.mp hc with ⟨d, hd, rfl⟩
    simp [digitChar_ne_dot (hds d hd)]
  have hdotc : (fun c => decide (c ≠ '.')) '.' = false := by decide
  have h1 : (String.mk (ds.map Nat.digitChar ++ '.' :: frac.map Nat.digitChar)).toList =
      ds.map Nat.digitChar ++ '.' :: frac.map Nat.digitChar := rfl
  have htake : (ds.map Nat.digitChar ++ '.' :: frac.map Nat.digitChar).takeWhile
      (fun c => c ≠ '.') = ds.map Nat.digitChar :=
    takeWhile_append_cons _ _ _ hdot hdotc
  have hdrop : (ds.map Nat.digitChar ++ '.' :: frac.map Nat.digitChar).dropWhile
      (fun c => c ≠ '.') = '.' :: frac.map Nat.digitChar :=
    dropWhile_append_cons _ _ _ hdot hdotc
  have hcond : ('.' ∉ frac.map Nat.digitChar) ∧
      (ds.map Nat.digitChar ≠ [] ∨ frac.map Nat.digitChar ≠ []) ∧
      (ds.map Nat.digitChar).all Char.isDigit = true ∧
      (frac.map Nat.digitChar).all Char.isDigit = true := by
    refine ⟨?_, Or.inl (by simpa using hne), ?_, ?_⟩
    · intro hmem
      rcases List.mem_map.mp hmem with ⟨d, hd, hdd⟩
      exact digitChar_ne_dot (hf d hd) hdd
    · rw [List.all_eq_true]
      intro c hc
      rcases List.mem_map.mp hc with ⟨d, hd, rfl⟩
      exact digitChar_isDigit (hds d hd)
    · rw [List.all_eq_true]
      intro c hc
      rcases List.mem_map.mp hc with ⟨d, hd, rfl⟩
      exact digitChar_isDigit (hf d hd)
  simp only [pyFloat?, h1, htake, hdrop]
  rw [if_pos hcond, digitsFold_map ds hds, digitsFold_map frac hf,
    List.length_map]

theorem parseCap_currencyStr (dollar : Bool) (ds frac : List ℕ)
    (hne : ds ≠ []) (hds : ∀ d ∈ ds, d < 10) (hf : ∀ d ∈ frac, d < 10) :
    parseCap (currencyStr dollar ds frac) =
      Except.ok (((digitsNat ds : ℕ) : ℚ) +
        ((digitsNat frac : ℕ) : ℚ) / (10 : ℚ) ^ frac.length) := by
  unfold parseCap
  rw [cleanCap_currencyStr dollar ds frac hds hf]
  by_cases hfe : frac = []
  · subst hfe
    have h0 : (if ([] : List ℕ) = [] then ([] : List Char)
        else '.' :: List.map Nat.digitChar []) = [] := rfl
    rw [h0, List.append_nil, pyFloat_digits ds hne hds]
    show Except.ok _ = Except.ok _
    congr 1
    norm_num [digitsNat]
  · rw [if_neg hfe, pyFloat_digits_frac ds frac hne hds hf]

/-! ### Structure of a successful extraction -/

/-- The per-record relation established by the second loop of
`get_content` between a zipped `(name, capitalization)` pair and the
record built from it. -/
def RecordOf (total : ℚ) (pr : String × String) (r : CoinInfo) : Prop :=
  r.1 = pyStrip pr.1 ∧ parseCap pr.2 = Except.ok r.2.1 ∧
    total ≠ 0 ∧ r.2.2 = r.2.1 / total * 100

theorem parseCaps_ok_forall :
    ∀ {ss : List String} {vs : List ℚ}, parseCaps ss = Except.ok vs →
      List.Forall₂ (fun s v => parseCap s = Except.ok v) ss vs := by
  intro ss
  induction ss with
  | nil =>
      intro vs h
      simp only [parseCaps, Except.ok.injEq] at h
      subst h
      constructor
  | cons s rest ih =>
      intro vs h
      simp only [parseCaps] at h
      rcases hc : parseCap s with e | c <;> rw [hc] at h
      · cases h
      · rcases hr : parseCaps rest with e2 | cs <;> rw [hr] at h
        · cases h
        · cases h
          exact List.Forall₂.cons hc (ih hr)

theorem mkRecords_ok_forall {total : ℚ} :
    ∀ {pairs : List (String × String)} {l : List CoinInfo},
      mkRecords total pairs = Except.ok l →
      List.Forall₂ (RecordOf total) pairs l := by
  intro pairs
  induction pairs with
  | nil =>
      intro l h
      simp only [mkRecords, Except.ok.injEq] at h
      subst h
      constructor
  | cons pr rest ih =>
      intro l h
      rcases pr with ⟨n, cs⟩
      simp only [mkRecords] at h
      rcases hc : parseCap cs with e | cap <;> rw [hc] at h
      · cases h
      · by_cases ht : total = 0
        · simp only [divQ, if_pos ht] at h
          cases h
        · simp only [divQ, if_neg ht] at h
          rcases hr : mkRecords total rest with e2 | rs <;> rw [hr] at h
          · cases h
          · cases h
            exact List.Forall₂.cons ⟨rfl, hc, ht, rfl⟩ (ih hr)

theorem get_content_ok {names caps : List String} {l : List CoinInfo}
    (h : get_content ⟨some ⟨names, caps⟩⟩ = Except.ok l) :
    ∃ capVals, parseCaps caps = Except.ok capVals ∧
      mkRecords capVals.sum (names.zip caps) = Except.ok l := by
  simp only [get_content] at h
  rcases hr : parseCaps caps with e | vs <;> rw [hr] at h
  · cases h
  · exact ⟨vs, rfl, h⟩

theorem parseCap_fun {s : String} {v w : ℚ} (h1 : parseCap s = Except.ok v)
    (h2 : parseCap s = Except.ok w) : v = w := by
  rw [h1] at h2
  exact Except.ok.inj h2

theorem forall₂_parseCap_unique :
    ∀ {ss : List String} {vs ws : List ℚ},
      List.Forall₂ (fun s v => parseCap s = Except.ok v) ss vs →
      List.Forall₂ (fun s v => parseCap s = Except.ok v) ss ws → vs = ws := by
  intro ss
  induction ss with
  | nil =>
      intro vs ws h1 h2
      rw [List.forall₂_nil_left_iff] at h1 h2
      rw [h1, h2]
  | cons s rest ih =>
      intro vs ws h1 h2
      rcases List.forall₂_cons_left_iff.mp h1 with ⟨v, vtl, hv, hvt, rfl⟩
      rcases List.forall₂_cons_left_iff.mp h2 with ⟨w, wtl, hw, hwt, rfl⟩
      rw [parseCap_fun hv hw, ih hvt hwt]

theorem forall₂_mem_right {α β : Type} {R : α → β → Prop} :
    ∀ {l1 : List α} {l2 : List β}, List.Forall₂ R l1 l2 →
      ∀ b ∈ l2, ∃ a ∈ l1, R a b := by
  intro l1
  induction l1 with
  | nil =>
      intro l2 h b hb
      rw [List.forall₂_nil_left_iff] at h
      subst h
      simp at hb
  | cons a rest ih =>
      intro l2 h b hb
      rcases List.forall₂_cons_left_iff.mp h with ⟨b0, btl, hab, htl, rfl⟩
      rcases List.mem_cons.mp hb with rfl | hb2
      · exact ⟨a, by simp, hab⟩
      · rcases ih htl b hb2 with ⟨a2, ha2, hr⟩
        exact ⟨a2, by simp [ha2], hr⟩

theorem sum_map_div_mul {total : ℚ} :
    ∀ l : List CoinInfo,
      (l.map fun r => r.2.1 / total * 100).sum =
        (l.map fun r => r.2.1).sum / total * 100
  | [] => by simp
  | r :: rs => by
      simp only [List.map_cons, List.sum_cons, sum_map_div_mul rs]
      ring

/-- Core of the percentage-sum property: when extraction over a table body
succeeds with a non-empty record list and every capitalization element got
paired with a name element, the percentages total exactly 100. -/
theorem sum_percent_eq (names caps : List String) (l : List CoinInfo)
    (h : get_content ⟨some ⟨names, caps⟩⟩ = Except.ok l) (hne : l ≠ [])
    (hlen : caps.length ≤ names.length) :
    (l.map fun r => r.2.2).sum = 100 := by
  rcases get_content_ok h with ⟨capVals, hcv, hmk⟩
  have hrel := mkRecords_ok_forall hmk
  have hnz : capVals.sum ≠ 0 := by
    rcases l with _ | ⟨r, rs⟩
    · exact absurd rfl hne
    · rcases List.forall₂_cons_right_iff.mp hrel with ⟨pr, prs, hpr, -, -⟩
      exact hpr.2.2.1
  have hsnd : (names.zip caps).map Prod.snd = caps :=
    List.map_snd_zip names caps hlen
  have hF1 : List.Forall₂ (fun s v => parseCap s = Except.ok v)
      ((names.zip caps).map Prod.snd) (l.map fun r => r.2.1) := by
    rw [List.forall₂_map_left_iff, List.forall₂_map_right_iff]
    exact hrel.imp (fun pr r hpr => hpr.2.1)
  rw [hsnd] at hF1
  have heq : l.map (fun r => r.2.1) = capVals :=
    forall₂_parseCap_unique hF1 (parseCaps_ok_forall hcv)
  have hmp : ∀ r ∈ l, r.2.2 = r.2.1 / capVals.sum * 100 := by
    intro r hr
    rcases forall₂_mem_right hrel r hr with ⟨pr, -, hpr⟩
    exact hpr.2.2.2
  calc (l.map fun r => r.2.2).sum
      = (l.map fun r => r.2.1 / capVals.sum * 100).sum := by
        congr 1
        exact List.map_congr_left hmp
    _ = (l.map fun r => r.2.1).sum / capVals.sum * 100 := sum_map_div_mul l
    _ = capVals.sum / capVals.sum * 100 := by rw [heq]
    _ = 100 := by
        rw [div_self hnz]
        norm_num

theorem forall₂_mem_left {α β : Type} {R : α → β → Prop} :
    ∀ {l1 : List α} {l2 : List β}, List.Forall₂ R l1 l2 →
      ∀ a ∈ l1, ∃ b ∈ l2, R a b := by
  intro l1
  induction l1 with
  | nil =>
      intro l2 h a ha
      simp at ha
  | cons a0 rest ih =>
      intro l2 h a ha
      rcases List.forall₂_cons_left_iff.mp h with ⟨b0, btl, hab, htl, rfl⟩
      rcases List.mem_cons.mp ha with rfl | ha2
      · exact ⟨b0, by simp, hab⟩
      · rcases ih htl a ha2 with ⟨b2, hb2, hr⟩
        exact ⟨b2, by simp [hb2], hr⟩

theorem get_zip_eq {α β : Type} :
    ∀ (l1 : List α) (l2 : List β) (i : ℕ) (h1 : i < l1.length)
      (h2 : i < l2.length) (h3 : i < (l1.zip l2).length),
      (l1.zip l2).get ⟨i, h3⟩ = (l1.get ⟨i, h1⟩, l2.get ⟨i, h2⟩)
  | _ :: _, _ :: _, 0, _, _, _ => rfl
  | _ :: l1, _ :: l2, i + 1, h1, h2, h3 =>
      get_zip_eq l1 l2 i (Nat.lt_of_succ_lt_succ h1)
        (Nat.lt_of_succ_lt_succ h2) (Nat.lt_of_succ_lt_succ h3)

/-- Pointwise description of a successful extraction: the record count is
the minimum of the two element counts, and the `i`-th record is built from
the `i`-th name and the `i`-th capitalization, with the percentage
denominator the sum over all parsed capitalization elements. -/
theorem extraction_pointwise (names caps : List String) (l : List CoinInfo)
    (h : get_content ⟨some ⟨names, caps⟩⟩ = Except.ok l) :
    ∃ capVals, parseCaps caps = Except.ok capVals ∧
      l.length = min names.length caps.length ∧
      ∀ (i : ℕ) (hn : i < names.length) (hc : i < caps.length)
        (hi : i < l.length),
        (l.get ⟨i, hi⟩).1 = pyStrip (names.get ⟨i, hn⟩) ∧
        parseCap (caps.get ⟨i, hc⟩) = Except.ok (l.get ⟨i, hi⟩).2.1 ∧
        (l.get ⟨i, hi⟩).2.2 = (l.get ⟨i, hi⟩).2.1 / capVals.sum * 100 := by
  rcases get_content_ok h with ⟨capVals, hcv, hmk⟩
  have hrel := mkRecords_ok_forall hmk
  have hlen : l.length = min names.length caps.length := by
    have := hrel.length_eq
    rw [List.length_zip] at this
    omega
  refine ⟨capVals, hcv, hlen, ?_⟩
  intro i hn hc hi
  have hzi : i < (names.zip caps).length := by
    rw [List.length_zip]
    omega
  have hget := (List.forall₂_iff_get.mp hrel).2 i hzi hi
  rw [get_zip_eq names caps i hn hc hzi] at hget
  exact ⟨hget.1, hget.2.1, hget.2.2.2⟩

theorem parseCaps_error_of_bad {ss : List String} {s : String} (hmem : s ∈ ss)
    (hbad : pyFloat? (cleanCap s) = none) :
    ∃ e, parseCaps ss = Except.error e := by
  rcases h : parseCaps ss with e | vs
  · exact ⟨e, rfl⟩
  · exfalso
    rcases forall₂_mem_left (parseCaps_ok_forall h) s hmem with ⟨v, -, hv⟩
    unfold parseCap at hv
    rw [hbad] at hv
    cases hv

/-! ### Concrete evaluations -/

theorem parseCap_100 : parseCap "100" = Except.ok 100 := rfl

theorem parseCap_300 : parseCap "300" = Except.ok 300 := rfl

theorem parseCap_600 : parseCap "600" = Except.ok 600 := rfl

theorem eval_one_name_two_caps :
    get_content ⟨some ⟨["A"], ["100", "100"]⟩⟩ =
      Except.ok [("A", 100, 50)] := by
  have hp : parseCaps ["100", "100"] = Except.ok [100, 100] := by
    simp only [parseCaps, parseCap_100]
  have hz : (["A"].zip ["100", "100"]) = [("A", "100")] := rfl
  have hsum : ([100, 100] : List ℚ).sum = 200 := by norm_num
  have hs : pyStrip "A" = "A" := rfl
  simp only [get_content, hp, hz, hsum]
  simp only [mkRecords, parseCap_100, divQ, hs]
  norm_num

theorem eval_two_names_two_caps :
    get_content ⟨some ⟨["A", "B"], ["100", "300"]⟩⟩ =
      Except.ok [("A", 100, 25), ("B", 300, 75)] := by
  have hp : parseCaps ["100", "300"] = Except.ok [100, 300] := by
    simp only [parseCaps, parseCap_100, parseCap_300]
  have hz : (["A", "B"].zip ["100", "300"]) = [("A", "100"), ("B", "300")] := rfl
  have hsum : ([100, 300] : List ℚ).sum = 400 := by norm_num
  have hsA : pyStrip "A" = "A" := rfl
  have hsB : pyStrip "B" = "B" := rfl
  simp only [get_content, hp, hz, hsum]
  simp only [mkRecords, parseCap_100, parseCap_300, divQ, hsA, hsB]
  norm_num

theorem eval_one_name_surplus_cap :
    get_content ⟨some ⟨["A"], ["100", "300"]⟩⟩ =
      Except.ok [("A", 100, 25)] := by
  have hp : parseCaps ["100", "300"] = Except.ok [100, 300] := by
    simp only [parseCaps, parseCap_100, parseCap_300]
  have hz : (["A"].zip ["100", "300"]) = [("A", "100")] := rfl
  have hsum : ([100, 300] : List ℚ).sum = 400 := by norm_num
  have hs : pyStrip "A" = "A" := rfl
  simp only [get_content, hp, hz, hsum]
  simp only [mkRecords, parseCap_100, divQ, hs]
  norm_num

/-! ### Claims -/

/-- C1 (amended): for every markup input on which extraction succeeds and
produces a non-empty record list, and in which there are at least as many
name elements as capitalization elements (so every capitalization element
is paired), the sum of the market-percentage fields over all produced
records equals 100 exactly in the exact-rational model. -/
theorem c1_percent_sum (m : Markup) (l : List CoinInfo)
    (h : get_content m = Except.ok l) (hne : l ≠ [])
    (hlen : ∀ t, m.tbody = some t → t.capTags.length ≤ t.nameTags.length) :
    (l.map fun r => r.2.2).sum = 100 := by
  rcases m with ⟨mt⟩
  rcases mt with _ | ⟨t⟩
  · simp [get_content] at h
  · rcases t with ⟨names, caps⟩
    exact sum_percent_eq names caps l h hne (hlen ⟨names, caps⟩ rfl)

/-- C1 witness: the amended theorem applied to a concrete two-record
extraction. -/
theorem c1_percent_sum_witness :
    (([("A", (100 : ℚ), (25 : ℚ)), ("B", (300 : ℚ), (75 : ℚ))] :
      List CoinInfo).map fun r => r.2.2).sum = 100 :=
  c1_percent_sum ⟨some ⟨["A", "B"], ["100", "300"]⟩⟩ _
    eval_two_names_two_caps (by simp)
    (by
      intro t ht
      cases ht
      decide)

/-- C1 counterexample: with one name element and two capitalization
elements of 100 each, extraction succeeds with a non-empty record list
whose percentages sum to 50, not 100. -/
theorem c1_percent_sum_cex :
    get_content ⟨some ⟨["A"], ["100", "100"]⟩⟩ =
        Except.ok [("A", 100, 50)] ∧
      ([("A", (100 : ℚ), (50 : ℚ))] : List CoinInfo) ≠ [] ∧
      (([("A", (100 : ℚ), (50 : ℚ))] : List CoinInfo).map
        fun r => r.2.2).sum ≠ 100 := by
  refine ⟨eval_one_name_two_caps, by simp, ?_⟩
  norm_num

/-- C2: on a table body with equally many name and capitalization
elements, a successful extraction yields exactly that many records, the
`i`-th pairing the `i`-th (stripped) name with the `i`-th (parsed)
capitalization in source order. -/
theorem c2_source_order (names caps : List String) (l : List CoinInfo)
    (hlen : names.length = caps.length)
    (h : get_content ⟨some ⟨names, caps⟩⟩ = Except.ok l) :
    l.length = names.length ∧
      ∀ (i : ℕ) (hn : i < names.length) (hc : i < caps.length)
        (hi : i < l.length),
        (l.get ⟨i, hi⟩).1 = pyStrip (names.get ⟨i, hn⟩) ∧
        parseCap (caps.get ⟨i, hc⟩) = Except.ok (l.get ⟨i, hi⟩).2.1 := by
  rcases extraction_pointwise names caps l h with ⟨capVals, -, hl, hpt⟩
  refine ⟨by omega, ?_⟩
  intro i hn hc hi
  exact ⟨(hpt i hn hc hi).1, (hpt i hn hc hi).2.1⟩

/-- C2 witness: the theorem applied to a concrete two-element extraction. -/
theorem c2_source_order_witness :
    ([("A", (100 : ℚ), (25 : ℚ)), ("B", (300 : ℚ), (75 : ℚ))] :
      List CoinInfo).length = (["A", "B"] : List String).length :=
  (c2_source_order ["A", "B"] ["100", "300"] _ rfl eval_two_names_two_caps).1

/-- C3: a capitalization string made of an optional `$`, comma-grouped
integer digits and an optional decimal point with fraction digits cleans
and parses to the denoted numeric value. -/
theorem c3_clean_parse (dollar : Bool) (ds frac : List ℕ)
    (hne : ds ≠ []) (hds : ∀ d ∈ ds, d < 10) (hf : ∀ d ∈ frac, d < 10) :
    parseCap (currencyStr dollar ds frac) =
      Except.ok (((digitsNat ds : ℕ) : ℚ) +
        ((digitsNat frac : ℕ) : ℚ) / (10 : ℚ) ^ frac.length) :=
  parseCap_currencyStr dollar ds frac hne hds hf

/-- C3 witness: `"$1,234,567.89"` parses to `1234567.89`. -/
theorem c3_clean_parse_witness :
    parseCap (currencyStr true [1, 2, 3, 4, 5, 6, 7] [8, 9]) =
      Except.ok ((123456789 : ℚ) / 100) :=
  (c3_clean_parse true [1, 2, 3, 4, 5, 6, 7] [8, 9] (by decide) (by decide)
    (by decide)).trans (by norm_num [digitsNat])

/-- C4: with three names paired with capitalization strings
`["100", "300", "600"]`, the produced market percentages are
`[10, 30, 60]` in that order. -/
theorem c4_percentages (n1 n2 n3 : String) :
    get_content ⟨some ⟨[n1, n2, n3], ["100", "300", "600"]⟩⟩ =
      Except.ok [(pyStrip n1, 100, 10), (pyStrip n2, 300, 30),
        (pyStrip n3, 600, 60)] := by
  have hp : parseCaps ["100", "300", "600"] = Except.ok [100, 300, 600] := by
    simp only [parseCaps, parseCap_100, parseCap_300, parseCap_600]
  have hz : ([n1, n2, n3].zip ["100", "300", "600"]) =
      [(n1, "100"), (n2, "300"), (n3, "600")] := rfl
  have hsum : ([100, 300, 600] : List ℚ).sum = 1000 := by norm_num
  simp only [get_content, hp, hz, hsum]
  simp only [mkRecords, parseCap_100, parseCap_300, parseCap_600, divQ]
  norm_num

/-- C5: the written file starts with the exact header row `Name;MC;MP`
and has one more row than there are extracted records. -/
theorem c5_header_and_count (coins : List CoinInfo) :
    (fileLines coins).head? = some "Name;MC;MP" ∧
      (fileLines coins).length = coins.length + 1 := by
  constructor
  · have hh : csvRow ["Name", "MC", "MP"] = "Name;MC;MP" := rfl
    simp [fileLines, hh]
  · simp [fileLines]

/-- C6: for any in-range timestamp, the written filename matches the
pattern `Top100 <HH.MM DD.MM.YYYY>.csv`. -/
theorem c6_filename_pattern (t : Timestamp) (_hh : t.hour < 24)
    (_hm : t.minute < 60) (_hd : t.day ≤ 31) (_hmo : t.month ≤ 12)
    (_hy1 : 1000 ≤ t.year) (_hy2 : t.year ≤ 9999) :
    matchesTop100Pattern (filenameOf t) = true := by
  have hd10 : ∀ x : ℕ, (Nat.digitChar (x % 10)).isDigit = true := fun x =>
    digitChar_isDigit (Nat.mod_lt x (by norm_num))
  have hlist : (filenameOf t).toList =
      'T' :: 'o' :: 'p' :: '1' :: '0' :: '0' :: ' ' ::
      Nat.digitChar (t.hour / 10 % 10) :: Nat.digitChar (t.hour % 10) :: '.' ::
      Nat.digitChar (t.minute / 10 % 10) :: Nat.digitChar (t.minute % 10) :: ' ' ::
      Nat.digitChar (t.day / 10 % 10) :: Nat.digitChar (t.day % 10) :: '.' ::
      Nat.digitChar (t.month / 10 % 10) :: Nat.digitChar (t.month % 10) :: '.' ::
      Nat.digitChar (t.year / 1000 % 10) :: Nat.digitChar (t.year / 100 % 10) ::
      Nat.digitChar (t.year / 10 % 10) :: Nat.digitChar (t.year % 10) ::
      '.' :: 'c' :: 's' :: 'v' :: [] := rfl
  unfold matchesTop100Pattern
  rw [hlist]
  simp [matchesShape, top100Shape, hd10]

/-- C6 witness: the theorem applied at a concrete timestamp. -/
theorem c6_filename_pattern_witness :
    matchesTop100Pattern (filenameOf ⟨14, 5, 12, 10, 2026⟩) = true :=
  c6_filename_pattern ⟨14, 5, 12, 10, 2026⟩ (by norm_num) (by norm_num)
    (by norm_num) (by norm_num) (by norm_num) (by norm_num)

/-- C7: a missing table body or an unparsable capitalization string makes
extraction terminate with a propagated error, and an extraction error
means no output rows are produced. -/
theorem c7_fault_propagation (m : Markup) :
    (m.tbody = none → ∃ e, get_content m = Except.error e) ∧
    (∀ t, m.tbody = some t → ∀ s ∈ t.capTags,
      pyFloat? (cleanCap s) = none → ∃ e, get_content m = Except.error e) ∧
    (∀ e, get_content m = Except.error e →
      run_output m = Except.error e) := by
  refine ⟨?_, ?_, ?_⟩
  · intro h
    rcases m with ⟨mt⟩
    cases h
    exact ⟨_, rfl⟩
  · intro t ht s hs hbad
    rcases parseCaps_error_of_bad hs hbad with ⟨e, he⟩
    rcases m with ⟨mt⟩
    cases ht
    refine ⟨e, ?_⟩
    simp only [get_content, he]
  · intro e he
    unfold run_output
    rw [he]
    rfl

/-- C7 witness: a markup without a table body errors, and so does one with
the unparsable capitalization string `"abc"`. -/
theorem c7_fault_propagation_witness :
    (∃ e, get_content ⟨none⟩ = Except.error e) ∧
    (∃ e, get_content ⟨some ⟨["A"], ["abc"]⟩⟩ = Except.error e) :=
  ⟨(c7_fault_propagation ⟨none⟩).1 rfl,
    (c7_fault_propagation ⟨some ⟨["A"], ["abc"]⟩⟩).2.1 ⟨["A"], ["abc"]⟩ rfl
      "abc" (by simp) rfl⟩

/-- C8: a table body with no capitalization elements extracts to the empty
record list without any error — in particular no division by the zero
total is attempted. -/
theorem c8_empty_caps (names : List String) :
    get_content ⟨some ⟨names, []⟩⟩ = Except.ok [] := by
  simp only [get_content, parseCaps]
  rw [List.zip_nil_right]
  simp [mkRecords]

/-- C9: on any successful extraction the record count is
`min (number of names) (number of capitalizations)`, records pair elements
positionally, and every percentage denominator is the sum over all parsed
capitalization elements including unpaired surplus ones. -/
theorem c9_mismatched_lengths (names caps : List String) (l : List CoinInfo)
    (h : get_content ⟨some ⟨names, caps⟩⟩ = Except.ok l) :
    l.length = min names.length caps.length ∧
      ∃ capVals, parseCaps caps = Except.ok capVals ∧
        ∀ (i : ℕ) (hn : i < names.length) (hc : i < caps.length)
          (hi : i < l.length),
          (l.get ⟨i, hi⟩).1 = pyStrip (names.get ⟨i, hn⟩) ∧
          parseCap (caps.get ⟨i, hc⟩) = Except.ok (l.get ⟨i, hi⟩).2.1 ∧
          (l.get ⟨i, hi⟩).2.2 =
            (l.get ⟨i, hi⟩).2.1 / capVals.sum * 100 := by
  rcases extraction_pointwise names caps l h with ⟨capVals, hcv, hl, hpt⟩
  exact ⟨hl, capVals, hcv, hpt⟩

/-- C9 witness: one name and two capitalizations produce one record whose
denominator includes the surplus capitalization. -/
theorem c9_mismatched_lengths_witness :
    ([("A", (100 : ℚ), (25 : ℚ))] : List CoinInfo).length =
      min (["A"] : List String).length (["100", "300"] : List String).length :=
  (c9_mismatched_lengths ["A"] ["100", "300"] _ eval_one_name_surplus_cap).1

/-- C10: extraction is deterministic — two runs on the same markup return
the same result. -/
theorem c10_deterministic (m : Markup) (r1 r2 : Except String (List CoinInfo))
    (h1 : get_content m = r1) (h2 : get_content m = r2) : r1 = r2 := by
  rw [← h1, ← h2]

/-- C10 witness: the theorem applied at a concrete markup. -/
theorem c10_deterministic_witness :
    get_content ⟨none⟩ = get_content ⟨none⟩ :=
  c10_deterministic ⟨none⟩ _ _ rfl rfl

end Cmc
